import Mathlib

/-!
# Verification of the `market_lab` auction-clearing core

A shallow embedding of `src/market_lab/core/{orders,market,traders,simulation}.py`
and `src/market_lab/manipulation/metrics.py`, together with proofs of the
specified properties.  Python `float` values are modelled as exact rationals
(`ℚ`), except in the detection metric `rolling_zscore`, where the square root
forces real numbers (`ℝ`).  Mutable objects become explicit state records, and
the runner's identity-keyed owner lookup becomes index pairing, following the
spec's translation note for the collect phase.
-/

namespace MarketLab

/-! ## Orders (`orders.py`) -/

/-- `Order` — a single limit order (`orders.py`, `class Order`). -/
structure Order where
  trader_id : String
  side : String
  price : ℚ
  volume : ℚ
deriving Repr, DecidableEq

/-- `Order.__post_init__` validation, modelled as a fallible constructor:
construction either raises `ValueError` (here `.error`) or yields the order. -/
def mkOrder (trader_id side : String) (price volume : ℚ) : Except String Order :=
  if ¬(side = "buy" ∨ side = "sell") then .error "Invalid side"
  else if price ≤ 0 then .error "Order price must be positive"
  else if volume ≤ 0 then .error "Order volume must be positive"
  else .ok { trader_id := trader_id, side := side, price := price, volume := volume }

/-- `OrderCurves` — aggregated book curves along a discrete price grid. -/
structure OrderCurves where
  price_grid : List ℚ
  buy_curve : List ℚ
  sell_curve : List ℚ
deriving Repr, DecidableEq

/-- `OrderCurves.satisfaction`: `[min(b, s) for b, s in zip(buy_curve, sell_curve)]`. -/
def OrderCurves.satisfaction (oc : OrderCurves) : List ℚ :=
  List.zipWith min oc.buy_curve oc.sell_curve

/-- Python `max(l)` guarded by `if l else 0.0` (used in `find_equilibrium_price`
and `_ensure_price_grid`). -/
def pyMax (l : List ℚ) : ℚ :=
  match l with
  | [] => 0
  | x :: xs => xs.foldl max x

/-- Python `min(l)` guarded by `if l else 0.0`. -/
def pyMin (l : List ℚ) : ℚ :=
  match l with
  | [] => 0
  | x :: xs => xs.foldl min x

/-- Python `int(q)` — truncation toward zero. -/
def pyInt (q : ℚ) : ℤ :=
  if q < 0 then -((-q).floor) else q.floor

/-- `_ensure_price_grid(buy_orders, sell_orders, price_tick)` from `orders.py`. -/
def ensure_price_grid (buy_orders sell_orders : List Order) (price_tick : ℚ) : List ℚ :=
  let prices := buy_orders.map Order.price ++ sell_orders.map Order.price
  if prices = [] then [price_tick]
  else
    let min_price := max (pyMin prices - price_tick) price_tick
    let max_price := pyMax prices + price_tick
    let steps := (pyInt ((max_price - min_price) / price_tick) + 1).toNat
    (List.range steps).map (fun (idx : ℕ) => min_price + price_tick * (idx : ℚ))

/-- `aggregate_orders(buy_orders, sell_orders, price_tick, price_grid)` from `orders.py`. -/
def aggregate_orders (buy_orders sell_orders : List Order) (price_tick : ℚ)
    (price_grid : Option (List ℚ)) : OrderCurves :=
  let grid0 :=
    match price_grid with
    | some g => g
    | none => ensure_price_grid buy_orders sell_orders price_tick
  let grid := if grid0 = [] then [price_tick] else grid0
  { price_grid := grid
    buy_curve := grid.map (fun price =>
      ((buy_orders.filter (fun o => decide (price ≤ o.price))).map Order.volume).sum)
    sell_curve := grid.map (fun price =>
      ((sell_orders.filter (fun o => decide (o.price ≤ price))).map Order.volume).sum) }

/-- `build_order_curves` from `orders.py` (wrapper with `price_grid=None`). -/
def build_order_curves (buy_orders sell_orders : List Order) (price_tick : ℚ) : OrderCurves :=
  aggregate_orders buy_orders sell_orders price_tick none

/-- The loop body of `allocate_fills`, generic in the volume accessor so that the
same code serves plain orders and (owner-index, order) pairs. -/
def allocateFillsGo {α : Type} (vol : α → ℚ) : List α → ℚ → List (α × ℚ)
  | [], _ => []
  | o :: rest, remaining =>
    if remaining ≤ 0 then []
    else
      let fill_volume := min (vol o) remaining
      if 0 < fill_volume then (o, fill_volume) :: allocateFillsGo vol rest (remaining - fill_volume)
      else allocateFillsGo vol rest remaining

/-- `allocate_fills(orders, volume)` from `orders.py`: FIFO greedy allocation,
starting from `remaining = max(volume, 0.0)`. -/
def allocate_fills (orders : List Order) (volume : ℚ) : List (Order × ℚ) :=
  allocateFillsGo Order.volume orders (max volume 0)

/-- `simulation.py` line 74: buy orders at or above the clearing price, sorted
descending by price (Python's stable `sorted` with `reverse=True`). -/
def buy_fill_candidates (buys : List Order) (price : ℚ) : List Order :=
  (buys.filter (fun o => decide (price ≤ o.price))).mergeSort
    (fun a b => decide (b.price ≤ a.price))

/-- `simulation.py` line 75: sell orders at or below the clearing price, sorted
ascending by price (Python's stable `sorted`). -/
def sell_fill_candidates (sells : List Order) (price : ℚ) : List Order :=
  (sells.filter (fun o => decide (o.price ≤ price))).mergeSort
    (fun a b => decide (a.price ≤ b.price))

/-! ## Market configuration and state (`market.py`) -/

/-- `MarketConfig` from `market.py`. -/
structure MarketConfig where
  n_traders : ℕ
  initial_price : ℚ
  price_volatility : ℚ
  max_daily_volume : ℚ
  wealth_mode : String := "unlimited"
  sentiment_mode : String := "none"
  price_tick : ℚ := 1
  seed : Option ℕ := none
deriving Repr, DecidableEq

/-- `MarketState` from `market.py`. -/
structure MarketState where
  day : ℕ
  price : ℚ
  volume : ℚ
  sentiment_value : ℚ
  order_curves : Option OrderCurves := none
  manipulation_score : Option ℚ := none
deriving Repr, DecidableEq

/-- `find_equilibrium_price(order_curves)` from `market.py`. -/
def find_equilibrium_price (order_curves : OrderCurves) : ℚ × ℚ :=
  let satisfaction := order_curves.satisfaction
  let max_volume := pyMax satisfaction
  if max_volume ≤ 0 then
    (order_curves.price_grid.getLastD 0, 0)
  else
    let candidates := ((order_curves.price_grid.zip satisfaction).filter
      (fun pv => decide (pv.2 = max_volume))).map Prod.fst
    let price :=
      if candidates = [] then order_curves.price_grid.getLastD 0
      else candidates.sum / candidates.length
    (price, max_volume)

/-- The clearing rule exactly as the spec words it: satisfaction is the
pointwise minimum of the curves, `max_volume` its maximum; when positive,
return the arithmetic mean of all tied grid prices together with `max_volume`,
otherwise the last grid price and zero volume.  Written from the spec text, to
be compared with `find_equilibrium_price` (which is written from the source). -/
def spec_equilibrium (oc : OrderCurves) : ℚ × ℚ :=
  let sat := List.zipWith min oc.buy_curve oc.sell_curve
  let max_volume := sat.max?.getD 0
  if 0 < max_volume then
    let tied := ((oc.price_grid.zip sat).filter (fun pv => decide (pv.2 = max_volume))).map Prod.fst
    (tied.sum / tied.length, max_volume)
  else
    (oc.price_grid.getLastD 0, 0)

/-- The tie set of `find_equilibrium_price`: grid prices whose satisfaction
equals the maximal satisfaction (the `candidates` local of `market.py`). -/
def tiedPrices (oc : OrderCurves) : List ℚ :=
  ((oc.price_grid.zip oc.satisfaction).filter
    (fun pv => decide (pv.2 = pyMax oc.satisfaction))).map Prod.fst

/-- The per-grid-price buy-side depth: total volume of buy orders whose limit
price is at least `p` (one entry of `buy_curve`). -/
def buyDepth (buys : List Order) (p : ℚ) : ℚ :=
  ((buys.filter (fun o => decide (p ≤ o.price))).map Order.volume).sum

/-- The per-grid-price sell-side depth: total volume of sell orders whose limit
price is at most `p` (one entry of `sell_curve`). -/
def sellDepth (sells : List Order) (p : ℚ) : ℚ :=
  ((sells.filter (fun o => decide (o.price ≤ p))).map Order.volume).sum

/-! ## Traders (`traders.py`) -/

/-- The state of a `WealthLimitedTrader` (its mutable `wealth`/`holdings`). -/
structure WLTrader where
  trader_id : String
  wealth : ℚ := 10000
  holdings : ℚ := 0
deriving Repr, DecidableEq

/-- The side-dependent volume cap computed by
`WealthLimitedTrader.maybe_generate_order` (its local `max_volume`). -/
def wlCap (wealth holdings : ℚ) (config : MarketConfig) (order : Order) : ℚ :=
  if order.side = "buy" then
    min (wealth / max order.price config.price_tick) config.max_daily_volume
  else
    min holdings config.max_daily_volume

/-- The volume-clipping step of `WealthLimitedTrader.maybe_generate_order`,
applied to the candidate order produced by the inherited random generator. -/
def wlClipOrder (wealth holdings : ℚ) (config : MarketConfig) (order : Order) : Option Order :=
  let max_volume := wlCap wealth holdings config order
  if max_volume ≤ 0 then none
  else
    let volume := min order.volume max_volume
    if volume ≤ 0 then none
    else some { order with volume := volume }

/-- `WealthLimitedTrader.maybe_generate_order`, with the stochastic candidate of
`RandomTrader.maybe_generate_order` (the `super()` call) passed in explicitly. -/
def wlMaybeGenerateOrder (wealth holdings : ℚ) (config : MarketConfig)
    (cand : Option Order) : Option Order :=
  match cand with
  | none => none
  | some order => wlClipOrder wealth holdings config order

/-- `WealthLimitedTrader.apply_fill(order, price, volume)` from `traders.py`. -/
def WLTrader.apply_fill (t : WLTrader) (order : Order) (price volume : ℚ) : WLTrader :=
  if volume ≤ 0 then t
  else if order.side = "buy" then
    { t with wealth := t.wealth - price * volume, holdings := t.holdings + volume }
  else
    { t with wealth := t.wealth + price * volume, holdings := t.holdings - volume }

/-! ## Simulation runner (`simulation.py`) -/

/-- In-place update of one list entry, modelling Python's mutation of the
trader object a fill belongs to. -/
def updateAt {α : Type} : List α → ℕ → (α → α) → List α
  | [], _, _ => []
  | x :: xs, 0, f => f x :: xs
  | x :: xs, n + 1, f => x :: updateAt xs n f

/-- The collect phase of `SimulationRunner.run` for a `WealthLimitedTrader`
population: each trader contributes at most one order.  The identity-keyed
owner lookup of the source becomes index pairing, following the spec's
translation note.  The stochastic candidate each trader's inherited generator
would produce is externalized in `cands`, one entry per trader. -/
def collectOrders (config : MarketConfig) (traders : List WLTrader)
    (cands : List (Option Order)) : List (ℕ × Order) :=
  (traders.zip cands).enum.filterMap (fun ie =>
    (wlMaybeGenerateOrder ie.2.1.wealth ie.2.1.holdings config ie.2.2).map (fun o => (ie.1, o)))

/-- `buy_orders` of the day: collected orders whose side is `"buy"`. -/
def dayBuyOrders (collected : List (ℕ × Order)) : List (ℕ × Order) :=
  collected.filter (fun io => decide (io.2.side = "buy"))

/-- `sell_orders` of the day: collected orders routed to the `else` branch of
`collect_order`. -/
def daySellOrders (collected : List (ℕ × Order)) : List (ℕ × Order) :=
  collected.filter (fun io => !decide (io.2.side = "buy"))

/-- The day's aggregated curves (`simulation.py` line 70). -/
def dayCurves (config : MarketConfig) (collected : List (ℕ × Order)) : OrderCurves :=
  build_order_curves ((dayBuyOrders collected).map Prod.snd)
    ((daySellOrders collected).map Prod.snd) config.price_tick

/-- The day's clearing price and volume (`simulation.py` line 71). -/
def dayPV (config : MarketConfig) (collected : List (ℕ × Order)) : ℚ × ℚ :=
  find_equilibrium_price (dayCurves config collected)

/-- Buy-side fills of the day (`simulation.py` lines 74 and 77): eligible
orders sorted descending by price, allocated greedily. -/
def dayBuyFills (config : MarketConfig) (collected : List (ℕ × Order)) :
    List ((ℕ × Order) × ℚ) :=
  allocateFillsGo (fun io => io.2.volume)
    (((dayBuyOrders collected).filter
        (fun io => decide ((dayPV config collected).1 ≤ io.2.price))).mergeSort
      (fun a b => decide (b.2.price ≤ a.2.price)))
    (max (dayPV config collected).2 0)

/-- Sell-side fills of the day (`simulation.py` lines 75 and 78): eligible
orders sorted ascending by price, allocated greedily. -/
def daySellFills (config : MarketConfig) (collected : List (ℕ × Order)) :
    List ((ℕ × Order) × ℚ) :=
  allocateFillsGo (fun io => io.2.volume)
    (((daySellOrders collected).filter
        (fun io => decide (io.2.price ≤ (dayPV config collected).1))).mergeSort
      (fun a b => decide (a.2.price ≤ b.2.price)))
    (max (dayPV config collected).2 0)

/-- Lines 65–93 of `simulation.py`: empty-day short-circuit, clearing,
allocation and settlement, shared by every trader representation through the
`applyF` fill callback (`owner.apply_fill`). -/
def clearDay {τ : Type} (applyF : τ → Order → ℚ → ℚ → τ) (config : MarketConfig)
    (day : ℕ) (sentiment_value last_price : ℚ)
    (collected : List (ℕ × Order)) (traders : List τ) : MarketState × List τ :=
  if dayBuyOrders collected = [] ∧ daySellOrders collected = [] then
    ({ day := day, price := last_price, volume := 0, sentiment_value := sentiment_value },
      traders)
  else
    let pv := dayPV config collected
    let traders2 := (dayBuyFills config collected ++ daySellFills config collected).foldl
      (fun ts fill =>
        if 0 < fill.2 then updateAt ts fill.1.1 (fun t => applyF t fill.1.2 pv.1 fill.2)
        else ts)
      traders
    ({ day := day, price := pv.1, volume := pv.2, sentiment_value := sentiment_value,
        order_curves := some (dayCurves config collected) }, traders2)

/-- One day of `SimulationRunner.run` over a `WealthLimitedTrader` population
with no manipulator, candidates externalized. -/
def runDay (config : MarketConfig) (day : ℕ) (sentiment_value last_price : ℚ)
    (traders : List WLTrader) (cands : List (Option Order)) : MarketState × List WLTrader :=
  clearDay WLTrader.apply_fill config day sentiment_value last_price
    (collectOrders config traders cands) traders

/-- `SimulationRunner.run` over `n` days for a `WealthLimitedTrader`
population: threads `last_price` forward (the empty-day branch leaves it
unchanged, since there the emitted price equals `last_price`).  Returns the
trader population and carried price after day `n - 1`. -/
def wlRun (config : MarketConfig) (sent : ℕ → ℚ) (cands : ℕ → List (Option Order))
    (last_price : ℚ) (traders : List WLTrader) : ℕ → List WLTrader × ℚ
  | 0 => (traders, last_price)
  | n + 1 =>
    let prev := wlRun config sent cands last_price traders n
    let step := runDay config n (sent n) prev.2 prev.1 (cands n)
    (step.2, step.1.price)

/-- The facts the collect phase guarantees about a fill `(o, f)` settled at
clearing price `p` against the owning trader `t`: the fill is positive, at most
the order's (clipped) volume, the clearing price is positive, a buy executes at
or below its limit with its cost bounded by the owner's wealth, and a sell's
volume is bounded by the owner's holdings. -/
def GoodFill (config : MarketConfig) (p : ℚ) (t : WLTrader) (o : Order) (f : ℚ) : Prop :=
  0 < f ∧ f ≤ o.volume ∧ 0 < p
    ∧ (o.side = "buy" → p ≤ o.price ∧ o.volume * max o.price config.price_tick ≤ t.wealth)
    ∧ (¬o.side = "buy" → o.volume ≤ t.holdings)

/-! ## Stochastic pipeline (`traders.py` generators and `build_traders`) -/

/-- State of a Python `random.Random` instance. -/
structure PyRandom where
  state : ℕ
deriving Repr, DecidableEq

/-- Modelled from the spec: `random.Random` (Python standard library, not code
of this repository) is a deterministic pseudo-random generator whose whole
output stream is a function of its seed; the spec relies only on that
determinism and on the exact count of draws per trader per day.  The Mersenne
Twister internals are replaced by a linear congruential step behind the same
interface (`random`, `uniform`, `gauss`, `randrange`), each call advancing the
state exactly once. -/
def PyRandom.seed (n : ℕ) : PyRandom := ⟨(n + 11400714819323198485) % 2 ^ 64⟩

/-- One raw generator step (modelled, see `PyRandom.seed`). -/
def PyRandom.next (r : PyRandom) : ℕ × PyRandom :=
  let s := (6364136223846793005 * r.state + 1442695040888963407) % 2 ^ 64
  (s, ⟨s⟩)

/-- `Random.random()`: a draw in `[0, 1)` (modelled, 53-bit resolution). -/
def PyRandom.random (r : PyRandom) : ℚ × PyRandom :=
  let n := r.next
  (((n.1 / 2 ^ 11 : ℕ) : ℚ) / (2 ^ 53 : ℚ), n.2)

/-- `Random.uniform(a, b)` (modelled). -/
def PyRandom.uniform (r : PyRandom) (a b : ℚ) : ℚ × PyRandom :=
  let u := r.random
  (a + (b - a) * u.1, u.2)

/-- `Random.gauss(mu, sigma)` (modelled: the Gaussian shape is irrelevant to
the claims; only determinism and the single state advance matter). -/
def PyRandom.gauss (r : PyRandom) (mu sigma : ℚ) : ℚ × PyRandom :=
  let u := r.random
  (mu + sigma * (2 * u.1 - 1), u.2)

/-- `Random.randrange(a, b)` (modelled). -/
def PyRandom.randrange (r : PyRandom) (a b : ℕ) : ℕ × PyRandom :=
  let n := r.next
  (a + n.1 % (b - a), n.2)

/-- A trader of the stochastic pipeline: `RandomTrader` (`limited = false`,
wealth/holdings unused) or `WealthLimitedTrader` (`limited = true`), each
owning its generator. -/
structure SimTrader where
  trader_id : String
  rng : PyRandom
  active_probability : ℚ := 4 / 5
  limited : Bool := false
  wealth : ℚ := 10000
  holdings : ℚ := 0
deriving Repr, DecidableEq

/-- `RandomTrader.maybe_generate_order`: an activation draw (consumed even when
inactive), then side, price (`_draw_price`) and volume (`_draw_volume`). -/
def drawOrder (config : MarketConfig) (last_price sentiment_value : ℚ) (t : SimTrader) :
    Option Order × PyRandom :=
  let u1 := t.rng.random
  if t.active_probability < u1.1 then (none, u1.2)
  else
    let u2 := u1.2.random
    let side := if u2.1 < 1 / 2 then "buy" else "sell"
    let g := u2.2.gauss (max (last_price + sentiment_value) config.price_tick)
      config.price_volatility
    let price := max g.1 config.price_tick
    let vol := g.2.uniform (1 / 10) config.max_daily_volume
    (some { trader_id := t.trader_id, side := side, price := price, volume := vol.1 }, vol.2)

/-- One trader's `maybe_generate_order` call: the inherited draw, then (for a
`WealthLimitedTrader`) the wealth/holdings clipping. -/
def simTraderStep (config : MarketConfig) (last_price sentiment_value : ℚ)
    (t : SimTrader) : Option Order × SimTrader :=
  let d := drawOrder config last_price sentiment_value t
  let t2 := { t with rng := d.2 }
  match d.1 with
  | none => (none, t2)
  | some order =>
    (if t.limited then wlClipOrder t.wealth t.holdings config order else some order, t2)

/-- `Trader.apply_fill` dispatch: no-op for a `RandomTrader` (base-class
no-op), the wealth/holdings update for a `WealthLimitedTrader`. -/
def SimTrader.apply_fill (t : SimTrader) (order : Order) (price volume : ℚ) : SimTrader :=
  if t.limited then
    if volume ≤ 0 then t
    else if order.side = "buy" then
      { t with wealth := t.wealth - price * volume, holdings := t.holdings + volume }
    else
      { t with wealth := t.wealth + price * volume, holdings := t.holdings - volume }
  else t

/-- The collect loop of `SimulationRunner.run`, threading each trader's
generator state. -/
def simCollect (config : MarketConfig) (last_price sentiment_value : ℚ) :
    List SimTrader → ℕ → List (ℕ × Order) × List SimTrader
  | [], _ => ([], [])
  | t :: rest, idx =>
    let step := simTraderStep config last_price sentiment_value t
    let tail := simCollect config last_price sentiment_value rest (idx + 1)
    (match step.1 with
     | none => tail.1
     | some o => (idx, o) :: tail.1,
     step.2 :: tail.2)

/-- One full day of `SimulationRunner.run` with no manipulator and the default
`NoSentiment` curve (`value_at` is constantly `0`). -/
def simDay (config : MarketConfig) (day : ℕ) (last_price : ℚ)
    (traders : List SimTrader) : MarketState × List SimTrader :=
  let col := simCollect config last_price 0 traders 0
  clearDay SimTrader.apply_fill config day 0 last_price col.1 col.2

/-- `SimulationRunner.run(n_days)` from day `day` at carried price `lp`. -/
def simRun (config : MarketConfig) : ℕ → ℕ → ℚ → List SimTrader → List MarketState
  | 0, _, _, _ => []
  | n + 1, day, lp, ts =>
    let step := simDay config day lp ts
    step.1 :: simRun config n (day + 1) step.1.price step.2

/-- The zero-padded sequential id `f"trader_{idx:04d}"` of `build_traders`. -/
def trader_name (idx : ℕ) : String :=
  let s := toString idx
  "trader_" ++ String.mk (List.replicate (4 - s.length) '0') ++ s

/-- The loop body of `build_traders`: one fresh sub-generator per trader, in
`"limited"` mode drawing wealth in `[5000, 15000]` and holdings in `[0, 20]`
from that sub-generator. -/
def buildTradersGo (config : MarketConfig) : ℕ → ℕ → PyRandom → List SimTrader
  | 0, _, _ => []
  | n + 1, idx, rng =>
    let d := rng.randrange 0 1000000000
    let trader_rng := PyRandom.seed d.1
    let t : SimTrader :=
      if config.wealth_mode = "limited" then
        let w := trader_rng.uniform 5000 15000
        let h := w.2.uniform 0 20
        { trader_id := trader_name idx, rng := h.2, limited := true,
          wealth := w.1, holdings := h.1 }
      else
        { trader_id := trader_name idx, rng := trader_rng, limited := false }
    t :: buildTradersGo config n (idx + 1) d.2

/-- `build_traders(config, rng)` from `traders.py`. -/
def build_traders (config : MarketConfig) (rng : PyRandom) : List SimTrader :=
  buildTradersGo config config.n_traders 0 rng

/-- The full reproducibility recipe of the tests: seed a generator, build the
population from it, run the simulation, and project each day's
`(day, price, volume)`. -/
def buildAndRun (config : MarketConfig) (seed n_days : ℕ) : List (ℕ × ℚ × ℚ) :=
  let traders := build_traders config (PyRandom.seed seed)
  (simRun config n_days 0 config.initial_price traders).map
    (fun st => (st.day, st.price, st.volume))

/-! ## Detection metrics (`manipulation/metrics.py`) -/

/-- `rolling_zscore(values, window)` from `metrics.py`.  Python floats are
modelled as real numbers; `variance ** 0.5` is the real square root, which
makes the definition noncomputable but exact.  The Python loop writing
`zscores[idx]` for each index becomes a map over `range(len(series))`. -/
noncomputable def rolling_zscore (values : List ℝ) (window : ℕ) : List ℝ :=
  if values.isEmpty then []
  else
    (List.range values.length).map (fun (idx : ℕ) =>
      let start := (max 0 ((idx : ℤ) - (window : ℤ) + 1)).toNat
      let window_slice := (values.drop start).take (idx + 1 - start)
      let mean := window_slice.sum / window_slice.length
      let std :=
        if 1 < window_slice.length then
          Real.sqrt ((window_slice.map (fun v => (v - mean) ^ 2)).sum
            / ((window_slice.length : ℝ) - 1))
        else 0
      if std = 0 then 0 else (values.getD idx 0 - mean) / std)

/-- The z-score at one index as the spec words it: the point standardized
against the trailing window of up to `window` points (all available points when
fewer exist), with sample standard deviation, defined as `0` whenever that
standard deviation is `0`.  Written from the spec text, to be compared with
`rolling_zscore`. -/
noncomputable def spec_zscore (values : List ℝ) (window : ℕ) (idx : ℕ) : ℝ :=
  let w := (values.take (idx + 1)).drop (idx + 1 - window)
  let mean := w.sum / w.length
  let sample_var :=
    if 1 < w.length then (w.map (fun v => (v - mean) ^ 2)).sum / ((w.length : ℝ) - 1)
    else 0
  let std := Real.sqrt sample_var
  if std = 0 then 0 else (values.getD idx 0 - mean) / std

/-! ## Helper lemmas about Python-style list max/min -/

lemma pyInt_eq (q : ℚ) : pyInt q = if q < 0 then -⌊-q⌋ else ⌊q⌋ := rfl

lemma foldl_max_init_le (l : List ℚ) : ∀ a : ℚ, a ≤ l.foldl max a := by
  induction l with
  | nil => intro a; exact le_refl a
  | cons x xs ih => intro a; exact le_trans (le_max_left a x) (ih (max a x))

lemma le_foldl_max (l : List ℚ) : ∀ (a x : ℚ), x ∈ l → x ≤ l.foldl max a := by
  induction l with
  | nil => intro a x hx; cases hx
  | cons y ys ih =>
    intro a x hx
    rcases List.mem_cons.mp hx with h | h
    · subst h; exact le_trans (le_max_right a x) (foldl_max_init_le ys (max a x))
    · exact ih (max a y) x h

lemma foldl_max_mem (l : List ℚ) : ∀ a : ℚ, l.foldl max a = a ∨ l.foldl max a ∈ l := by
  induction l with
  | nil => intro a; exact Or.inl rfl
  | cons y ys ih =>
    intro a
    rcases ih (max a y) with h | h
    · rcases max_choice a y with hm | hm
      · exact Or.inl (by rw [List.foldl_cons, h, hm])
      · exact Or.inr (by rw [List.foldl_cons, h, hm]; exact List.mem_cons_self y ys)
    · exact Or.inr (List.mem_cons_of_mem y h)

lemma foldl_min_init_le (l : List ℚ) : ∀ a : ℚ, l.foldl min a ≤ a := by
  induction l with
  | nil => intro a; exact le_refl a
  | cons x xs ih => intro a; exact le_trans (ih (min a x)) (min_le_left a x)

lemma foldl_min_le (l : List ℚ) : ∀ (a x : ℚ), x ∈ l → l.foldl min a ≤ x := by
  induction l with
  | nil => intro a x hx; cases hx
  | cons y ys ih =>
    intro a x hx
    rcases List.mem_cons.mp hx with h | h
    · subst h; exact le_trans (foldl_min_init_le ys (min a x)) (min_le_right a x)
    · exact ih (min a y) x h

lemma pyMax_mem {l : List ℚ} (h : l ≠ []) : pyMax l ∈ l := by
  match l with
  | [] => exact absurd rfl h
  | x :: xs =>
    rcases foldl_max_mem xs x with hm | hm
    · rw [pyMax, hm]; exact List.mem_cons_self x xs
    · exact List.mem_cons_of_mem x hm

lemma le_pyMax {l : List ℚ} {x : ℚ} (hx : x ∈ l) : x ≤ pyMax l := by
  match l with
  | [] => cases hx
  | y :: ys =>
    rcases List.mem_cons.mp hx with h | h
    · subst h; exact foldl_max_init_le ys x
    · exact le_foldl_max ys y x h

lemma pyMax_nonpos {l : List ℚ} (h : ∀ x ∈ l, x ≤ 0) : pyMax l ≤ 0 := by
  match l with
  | [] => exact le_refl 0
  | x :: xs => exact h _ (pyMax_mem (List.cons_ne_nil x xs))

lemma foldl_min_mem (l : List ℚ) : ∀ a : ℚ, l.foldl min a = a ∨ l.foldl min a ∈ l := by
  induction l with
  | nil => intro a; exact Or.inl rfl
  | cons y ys ih =>
    intro a
    rcases ih (min a y) with hm | hm
    · rcases min_choice a y with h2 | h2
      · exact Or.inl (by rw [List.foldl_cons, hm, h2])
      · exact Or.inr (by rw [List.foldl_cons, hm, h2]; exact List.mem_cons_self y ys)
    · exact Or.inr (List.mem_cons_of_mem y hm)

lemma pyMin_mem {l : List ℚ} (h : l ≠ []) : pyMin l ∈ l := by
  match l with
  | [] => exact absurd rfl h
  | x :: xs =>
    rcases foldl_min_mem xs x with hm | hm
    · rw [pyMin, hm]; exact List.mem_cons_self x xs
    · exact List.mem_cons_of_mem x hm

lemma pyMin_le {l : List ℚ} {x : ℚ} (hx : x ∈ l) : pyMin l ≤ x := by
  match l with
  | [] => cases hx
  | y :: ys =>
    rcases List.mem_cons.mp hx with h | h
    · subst h; exact foldl_min_init_le ys x
    · exact foldl_min_le ys y x h

lemma pyMax_eq_max?_getD (l : List ℚ) : pyMax l = l.max?.getD 0 := by
  cases l with
  | nil => rfl
  | cons x xs => rfl

/-- The arithmetic mean of a non-empty list is at most its maximum. -/
lemma mean_le_pyMax {l : List ℚ} (h : l ≠ []) : l.sum / l.length ≤ pyMax l := by
  have hlen : 0 < (l.length : ℚ) := by
    have := List.length_pos.mpr h
    exact_mod_cast this
  rw [div_le_iff₀ hlen]
  have := List.sum_le_card_nsmul l (pyMax l) (fun x hx => le_pyMax hx)
  rwa [nsmul_eq_mul, mul_comm] at this

/-- The arithmetic mean of a non-empty list is at least its minimum. -/
lemma pyMin_le_mean {l : List ℚ} (h : l ≠ []) : pyMin l ≤ l.sum / l.length := by
  have hlen : 0 < (l.length : ℚ) := by
    have := List.length_pos.mpr h
    exact_mod_cast this
  rw [le_div_iff₀ hlen]
  have := List.card_nsmul_le_sum l (pyMin l) (fun x hx => pyMin_le hx)
  rwa [nsmul_eq_mul, mul_comm] at this

/-- If `mv` occurs in `sat` and `sat` is no longer than `grid`, the tie set of
grid prices whose satisfaction equals `mv` is non-empty. -/
lemma tied_ne_nil {grid sat : List ℚ} {mv : ℚ} (hlen : sat.length ≤ grid.length)
    (hmem : mv ∈ sat) :
    ((grid.zip sat).filter (fun pv => decide (pv.2 = mv))).map Prod.fst ≠ [] := by
  obtain ⟨j, hj, hjv⟩ := List.mem_iff_getElem.mp hmem
  have hjg : j < grid.length := lt_of_lt_of_le hj hlen
  have hjz : j < (grid.zip sat).length := by
    rw [List.length_zip]
    exact lt_min_iff.mpr ⟨hjg, hj⟩
  have hzj : (grid.zip sat)[j] = (grid[j], sat[j]) := List.getElem_zip
  have hmemz : (grid[j], mv) ∈ grid.zip sat := by
    rw [← hjv, ← hzj]
    exact List.getElem_mem hjz
  have hfil : (grid[j], mv) ∈ (grid.zip sat).filter (fun pv => decide (pv.2 = mv)) :=
    List.mem_filter.mpr ⟨hmemz, by simp⟩
  exact List.ne_nil_of_mem (List.mem_map_of_mem Prod.fst hfil)

/-! ## Helper lemmas about the price grid built by `aggregate_orders` -/

lemma build_grid_eq (buys sells : List Order) (tick : ℚ) :
    (build_order_curves buys sells tick).price_grid =
      if ensure_price_grid buys sells tick = [] then [tick]
      else ensure_price_grid buys sells tick := rfl

lemma build_buy_curve_eq (buys sells : List Order) (tick : ℚ) :
    (build_order_curves buys sells tick).buy_curve =
      (build_order_curves buys sells tick).price_grid.map (fun price =>
        ((buys.filter (fun o => decide (price ≤ o.price))).map Order.volume).sum) := rfl

lemma build_sell_curve_eq (buys sells : List Order) (tick : ℚ) :
    (build_order_curves buys sells tick).sell_curve =
      (build_order_curves buys sells tick).price_grid.map (fun price =>
        ((sells.filter (fun o => decide (o.price ≤ price))).map Order.volume).sum) := rfl

lemma build_grid_ne_nil (buys sells : List Order) (tick : ℚ) :
    (build_order_curves buys sells tick).price_grid ≠ [] := by
  rw [build_grid_eq]
  split
  · simp
  · assumption

lemma range_map_affine_last_max (a t : ℚ) (ht : 0 < t) (n : ℕ) :
    ∀ p ∈ (List.range n).map (fun (idx : ℕ) => a + t * (idx : ℚ)),
      p ≤ ((List.range n).map (fun (idx : ℕ) => a + t * (idx : ℚ))).getLastD 0 := by
  cases n with
  | zero => simp
  | succ m =>
    have hlast : ((List.range (m + 1)).map (fun (idx : ℕ) => a + t * (idx : ℚ))).getLastD 0
        = a + t * (m : ℚ) := by
      rw [List.range_succ, List.map_append]
      simp [List.getLastD_eq_getLast?, List.getLast?_append]
    rw [hlast]
    intro p hp
    simp only [List.mem_map, List.mem_range] at hp
    obtain ⟨i, hi, rfl⟩ := hp
    have hile : (i : ℚ) ≤ (m : ℚ) := by exact_mod_cast Nat.lt_succ_iff.mp hi
    nlinarith

lemma build_grid_last_max (buys sells : List Order) (tick : ℚ) (ht : 0 < tick) :
    ∀ p ∈ (build_order_curves buys sells tick).price_grid,
      p ≤ (build_order_curves buys sells tick).price_grid.getLastD 0 := by
  rw [build_grid_eq]
  split
  · simp
  · simp only [ensure_price_grid]
    split
    · simp
    · exact range_map_affine_last_max _ tick ht _

lemma build_grid_ge_tick (buys sells : List Order) (tick : ℚ) (ht : 0 < tick) :
    ∀ p ∈ (build_order_curves buys sells tick).price_grid, tick ≤ p := by
  rw [build_grid_eq]
  split
  · simp
  · simp only [ensure_price_grid]
    split
    · simp
    · intro p hp
      simp only [List.mem_map, List.mem_range] at hp
      obtain ⟨i, hi, rfl⟩ := hp
      have h1 : tick ≤ max (pyMin (buys.map Order.price ++ sells.map Order.price) - tick) tick :=
        le_max_right _ _
      have h2 : 0 ≤ tick * (i : ℚ) := mul_nonneg ht.le (Nat.cast_nonneg i)
      linarith

/-- Every satisfaction entry of the curves built from non-overlapping books is
non-positive: at each grid price one of the two filtered books is empty. -/
lemma no_overlap_satisfaction_nonpos (buys sells : List Order) (tick : ℚ)
    (hlt : ∀ b ∈ buys, ∀ s ∈ sells, b.price < s.price) :
    ∀ x ∈ (build_order_curves buys sells tick).satisfaction, x ≤ 0 := by
  intro x hx
  rw [OrderCurves.satisfaction, build_buy_curve_eq, build_sell_curve_eq,
    List.zipWith_map, List.zipWith_same] at hx
  simp only [List.mem_map] at hx
  obtain ⟨p, _, rfl⟩ := hx
  by_cases hfb : buys.filter (fun o => decide (p ≤ o.price)) = []
  · refine le_trans (min_le_left _ _) ?_
    rw [hfb]
    simp
  · obtain ⟨b, hbmem⟩ := List.exists_mem_of_ne_nil _ hfb
    have hb := List.mem_filter.mp hbmem
    have hbp : p ≤ b.price := by simpa using hb.2
    have hfs : sells.filter (fun o => decide (o.price ≤ p)) = [] := by
      by_contra hne
      obtain ⟨s, hsmem⟩ := List.exists_mem_of_ne_nil _ hne
      have hsf := List.mem_filter.mp hsmem
      have hsp : s.price ≤ p := by simpa using hsf.2
      have := hlt b hb.1 s hsf.1
      linarith
    refine le_trans (min_le_right _ _) ?_
    rw [hfs]
    simp

/-! ## Helper lemmas about `allocate_fills` -/

lemma allocateFillsGo_sum {α : Type} (vol : α → ℚ) (l : List α) :
    ∀ r : ℚ, (∀ a ∈ l, 0 < vol a) →
      ((allocateFillsGo vol l r).map Prod.snd).sum = min (max r 0) ((l.map vol).sum) := by
  induction l with
  | nil =>
    intro r _
    simp [allocateFillsGo, min_eq_right (le_max_right r 0)]
  | cons a l ih =>
    intro r h
    have ha : 0 < vol a := h a (List.mem_cons_self a l)
    have htail : ∀ b ∈ l, 0 < vol b := fun b hb => h b (List.mem_cons_of_mem a hb)
    have htsum : 0 ≤ (l.map vol).sum :=
      List.sum_nonneg (by
        intro x hx
        obtain ⟨b, hb, rfl⟩ := List.mem_map.mp hx
        exact (htail b hb).le)
    by_cases hr : r ≤ 0
    · rw [allocateFillsGo, if_pos hr]
      have : max r 0 = 0 := max_eq_right hr
      rw [this]
      simp only [List.map_nil, List.sum_nil, List.map_cons, List.sum_cons]
      exact (min_eq_left (by linarith)).symm
    · have hr' : 0 < r := lt_of_not_le hr
      have hfill : 0 < min (vol a) r := lt_min ha hr'
      rw [allocateFillsGo, if_neg hr]
      simp only [if_pos hfill, List.map_cons, List.sum_cons]
      rw [ih _ htail]
      have hmaxr : max r 0 = r := max_eq_left hr'.le
      rw [hmaxr]
      by_cases hva : vol a ≤ r
      · have h1 : min (vol a) r = vol a := min_eq_left hva
        have h2 : max (r - min (vol a) r) 0 = r - vol a := by
          rw [h1]; exact max_eq_left (by linarith)
        rw [h2, h1, ← min_add_add_left (vol a) (r - vol a) ((l.map vol).sum)]
        congr 1
        ring
      · have hva' : r < vol a := lt_of_not_le hva
        have h1 : min (vol a) r = r := min_eq_right hva'.le
        have h2 : max (r - min (vol a) r) 0 = 0 := by rw [h1]; simp
        rw [h2, h1, min_eq_left htsum, add_zero]
        exact (min_eq_left (by linarith)).symm

lemma allocateFillsGo_mem {α : Type} (vol : α → ℚ) (l : List α) :
    ∀ (r : ℚ) (a : α) (f : ℚ), (a, f) ∈ allocateFillsGo vol l r →
      a ∈ l ∧ 0 < f ∧ f ≤ vol a ∧ 0 < r := by
  induction l with
  | nil => intro r a f h; simp [allocateFillsGo] at h
  | cons b l ih =>
    intro r a f h
    rw [allocateFillsGo] at h
    by_cases hr : r ≤ 0
    · rw [if_pos hr] at h; cases h
    · rw [if_neg hr] at h
      have hr' : 0 < r := lt_of_not_le hr
      by_cases hfill : 0 < min (vol b) r
      · rw [if_pos hfill] at h
        rcases List.mem_cons.mp h with h | h
        · have ha : a = b := congrArg Prod.fst h
          have hf : f = min (vol b) r := congrArg Prod.snd h
          subst ha
          subst hf
          exact ⟨List.mem_cons_self a l, hfill, min_le_left _ _, hr'⟩
        · obtain ⟨hmem, hf, hle, _⟩ := ih _ a f h
          exact ⟨List.mem_cons_of_mem b hmem, hf, hle, hr'⟩
      · rw [if_neg hfill] at h
        obtain ⟨hmem, hf, hle, _⟩ := ih _ a f h
        exact ⟨List.mem_cons_of_mem b hmem, hf, hle, hr'⟩

lemma allocateFillsGo_fst_sublist {α : Type} (vol : α → ℚ) (l : List α) :
    ∀ r : ℚ, ((allocateFillsGo vol l r).map Prod.fst).Sublist l := by
  induction l with
  | nil => intro r; simp [allocateFillsGo]
  | cons b l ih =>
    intro r
    rw [allocateFillsGo]
    by_cases hr : r ≤ 0
    · rw [if_pos hr]; simp
    · rw [if_neg hr]
      by_cases hfill : 0 < min (vol b) r
      · rw [if_pos hfill]
        simp only [List.map_cons]
        exact List.Sublist.cons₂ b (ih _)
      · rw [if_neg hfill]
        exact List.Sublist.cons b (ih _)

/-- An element of the tie set corresponds to a grid index whose satisfaction
equals the maximal volume. -/
lemma tied_mem_index {grid sat : List ℚ} {mv x : ℚ}
    (hx : x ∈ ((grid.zip sat).filter (fun pv => decide (pv.2 = mv))).map Prod.fst) :
    ∃ j, ∃ (hjg : j < grid.length), ∃ (hjs : j < sat.length),
      grid[j] = x ∧ sat[j] = mv := by
  obtain ⟨pv, hpv, rfl⟩ := List.mem_map.mp hx
  have h1 := List.mem_filter.mp hpv
  have h2 : pv.2 = mv := by simpa using h1.2
  obtain ⟨j, hj, hjv⟩ := List.mem_iff_getElem.mp h1.1
  have hjg : j < grid.length := lt_of_lt_of_le hj (by rw [List.length_zip]; exact min_le_left _ _)
  have hjs : j < sat.length := lt_of_lt_of_le hj (by rw [List.length_zip]; exact min_le_right _ _)
  have : (grid[j], sat[j]) = pv := by rw [← List.getElem_zip]; exact hjv
  refine ⟨j, hjg, hjs, ?_, ?_⟩
  · rw [← this]
  · rw [← h2, ← this]

/-- When the returned volume is non-zero, `find_equilibrium_price` is in its
positive branch: the tie set is non-empty and the result is its mean together
with the maximal satisfaction. -/
lemma equilibrium_pos (oc : OrderCurves) (hlen : oc.satisfaction.length ≤ oc.price_grid.length)
    (hv : (find_equilibrium_price oc).2 ≠ 0) :
    0 < pyMax oc.satisfaction ∧ tiedPrices oc ≠ [] ∧
      find_equilibrium_price oc
        = ((tiedPrices oc).sum / (tiedPrices oc).length, pyMax oc.satisfaction) := by
  by_cases hle : pyMax oc.satisfaction ≤ 0
  · exfalso
    apply hv
    simp only [find_equilibrium_price]
    rw [if_pos hle]
  · have hpos := lt_of_not_le hle
    have hsatne : oc.satisfaction ≠ [] := by
      intro h
      rw [h] at hpos
      exact absurd hpos (by norm_num [pyMax])
    have hcand : tiedPrices oc ≠ [] := tied_ne_nil hlen (pyMax_mem hsatne)
    refine ⟨hpos, hcand, ?_⟩
    have hcand' := hcand
    simp only [tiedPrices] at hcand'
    simp only [find_equilibrium_price, tiedPrices]
    rw [if_neg hle, if_neg hcand']

lemma buyDepth_antitone (buys : List Order) (hb : ∀ o ∈ buys, 0 < o.volume)
    {p q : ℚ} (hpq : p ≤ q) : buyDepth buys q ≤ buyDepth buys p := by
  have hsub : (buys.filter (fun o => decide (q ≤ o.price))).Sublist
      (buys.filter (fun o => decide (p ≤ o.price))) :=
    List.monotone_filter_right buys (fun o ho => by
      simp only [decide_eq_true_eq] at ho ⊢
      linarith)
  refine List.Sublist.sum_le_sum (List.Sublist.map Order.volume hsub) ?_
  intro x hx
  obtain ⟨o, ho, rfl⟩ := List.mem_map.mp hx
  exact (hb o (List.mem_filter.mp ho).1).le

lemma sellDepth_monotone (sells : List Order) (hs : ∀ o ∈ sells, 0 < o.volume)
    {p q : ℚ} (hpq : p ≤ q) : sellDepth sells p ≤ sellDepth sells q := by
  have hsub : (sells.filter (fun o => decide (o.price ≤ p))).Sublist
      (sells.filter (fun o => decide (o.price ≤ q))) :=
    List.monotone_filter_right sells (fun o ho => by
      simp only [decide_eq_true_eq] at ho ⊢
      linarith)
  refine List.Sublist.sum_le_sum (List.Sublist.map Order.volume hsub) ?_
  intro x hx
  obtain ⟨o, ho, rfl⟩ := List.mem_map.mp hx
  exact (hs o (List.mem_filter.mp ho).1).le

/-- The satisfaction list of freshly built curves, as a map over the grid. -/
lemma build_satisfaction_eq (buys sells : List Order) (tick : ℚ) :
    (build_order_curves buys sells tick).satisfaction =
      (build_order_curves buys sells tick).price_grid.map
        (fun p => min (buyDepth buys p) (sellDepth sells p)) := by
  rw [OrderCurves.satisfaction, build_buy_curve_eq, build_sell_curve_eq,
    List.zipWith_map, List.zipWith_same]
  rfl

/-- Any tied price of freshly built curves has both depths at least the maximal
satisfaction. -/
lemma tied_depth_ge (buys sells : List Order) (tick : ℚ) {x : ℚ}
    (hx : x ∈ tiedPrices (build_order_curves buys sells tick)) :
    pyMax (build_order_curves buys sells tick).satisfaction ≤ buyDepth buys x
    ∧ pyMax (build_order_curves buys sells tick).satisfaction ≤ sellDepth sells x := by
  have hx' := hx
  simp only [tiedPrices] at hx'
  obtain ⟨j, hjg, hjs, hgj, hsj⟩ := tied_mem_index hx'
  have hjm : j < ((build_order_curves buys sells tick).price_grid.map
      (fun p => min (buyDepth buys p) (sellDepth sells p))).length := by
    rw [List.length_map]; exact hjg
  have hsatj : (build_order_curves buys sells tick).satisfaction[j]
      = min (buyDepth buys x) (sellDepth sells x) := by
    calc (build_order_curves buys sells tick).satisfaction[j]
        = ((build_order_curves buys sells tick).price_grid.map
            (fun p => min (buyDepth buys p) (sellDepth sells p)))[j] := by
          congr 1
          exact build_satisfaction_eq buys sells tick
      _ = min (buyDepth buys ((build_order_curves buys sells tick).price_grid[j]))
            (sellDepth sells ((build_order_curves buys sells tick).price_grid[j])) :=
          List.getElem_map _
      _ = min (buyDepth buys x) (sellDepth sells x) := by rw [hgj]
  rw [hsatj] at hsj
  constructor
  · rw [← hsj]; exact min_le_left _ _
  · rw [← hsj]; exact min_le_right _ _

/-- C2: on any day whose cleared volume is non-zero, each side's greedy fill
allocation (over the price-eligible, aggressiveness-sorted orders) sums exactly
to the cleared volume. -/
theorem fill_conservation (buys sells : List Order) (tick : ℚ)
    (hb : ∀ o ∈ buys, 0 < o.volume) (hs : ∀ o ∈ sells, 0 < o.volume)
    (p v : ℚ)
    (hpv : find_equilibrium_price (build_order_curves buys sells tick) = (p, v))
    (hv : v ≠ 0) :
    ((allocate_fills (buy_fill_candidates buys p) v).map Prod.snd).sum = v
    ∧ ((allocate_fills (sell_fill_candidates sells p) v).map Prod.snd).sum = v := by
  have hlen : (build_order_curves buys sells tick).satisfaction.length
      ≤ (build_order_curves buys sells tick).price_grid.length := by
    rw [build_satisfaction_eq, List.length_map]
  obtain ⟨hpos, hcand, hfind⟩ := equilibrium_pos (build_order_curves buys sells tick) hlen
    (by rw [hpv]; exact hv)
  rw [hpv] at hfind
  have hveq : v = pyMax (build_order_curves buys sells tick).satisfaction :=
    congrArg Prod.snd hfind
  have hpeq : p = (tiedPrices (build_order_curves buys sells tick)).sum
      / (tiedPrices (build_order_curves buys sells tick)).length :=
    congrArg Prod.fst hfind
  have hvpos : 0 < v := hveq ▸ hpos
  constructor
  · -- buy side
    have hmaxmem : pyMax (tiedPrices (build_order_curves buys sells tick))
        ∈ tiedPrices (build_order_curves buys sells tick) := pyMax_mem hcand
    have hple : p ≤ pyMax (tiedPrices (build_order_curves buys sells tick)) := by
      rw [hpeq]; exact mean_le_pyMax hcand
    have hdepth := (tied_depth_ge buys sells tick hmaxmem).1
    have htot : v ≤ buyDepth buys p := by
      rw [hveq]
      exact le_trans hdepth (buyDepth_antitone buys hb hple)
    have hperm : (buy_fill_candidates buys p).Perm
        (buys.filter (fun o => decide (p ≤ o.price))) := List.mergeSort_perm _ _
    have hsump : ((buy_fill_candidates buys p).map Order.volume).sum = buyDepth buys p :=
      List.Perm.sum_eq (List.Perm.map Order.volume hperm)
    have hposvol : ∀ o ∈ buy_fill_candidates buys p, 0 < Order.volume o := by
      intro o ho
      have := (List.Perm.mem_iff hperm).mp ho
      exact hb o (List.mem_filter.mp this).1
    rw [allocate_fills, allocateFillsGo_sum Order.volume _ _ hposvol, hsump,
      max_eq_left hvpos.le, max_eq_left hvpos.le]
    exact min_eq_left htot
  · -- sell side
    have hminmem : pyMin (tiedPrices (build_order_curves buys sells tick))
        ∈ tiedPrices (build_order_curves buys sells tick) := pyMin_mem hcand
    have hple : pyMin (tiedPrices (build_order_curves buys sells tick)) ≤ p := by
      rw [hpeq]; exact pyMin_le_mean hcand
    have hdepth := (tied_depth_ge buys sells tick hminmem).2
    have htot : v ≤ sellDepth sells p := by
      rw [hveq]
      exact le_trans hdepth (sellDepth_monotone sells hs hple)
    have hperm : (sell_fill_candidates sells p).Perm
        (sells.filter (fun o => decide (o.price ≤ p))) := List.mergeSort_perm _ _
    have hsump : ((sell_fill_candidates sells p).map Order.volume).sum = sellDepth sells p :=
      List.Perm.sum_eq (List.Perm.map Order.volume hperm)
    have hposvol : ∀ o ∈ sell_fill_candidates sells p, 0 < Order.volume o := by
      intro o ho
      have := (List.Perm.mem_iff hperm).mp ho
      exact hs o (List.mem_filter.mp this).1
    rw [allocate_fills, allocateFillsGo_sum Order.volume _ _ hposvol, hsump,
      max_eq_left hvpos.le, max_eq_left hvpos.le]
    exact min_eq_left htot

/-- Witness for C2: one overlapping buy/sell pair clears at price `3/2` with
volume `1`, and both allocations sum to `1`. -/
theorem fill_conservation_witness :
    ((allocate_fills (buy_fill_candidates [⟨"a", "buy", 2, 1⟩] (3 / 2)) 1).map Prod.snd).sum = 1
    ∧ ((allocate_fills (sell_fill_candidates [⟨"b", "sell", 1, 1⟩] (3 / 2)) 1).map
        Prod.snd).sum = 1 :=
  fill_conservation [⟨"a", "buy", 2, 1⟩] [⟨"b", "sell", 1, 1⟩] 1
    (by intro o ho; simp only [List.mem_singleton] at ho; subst ho; norm_num)
    (by intro o ho; simp only [List.mem_singleton] at ho; subst ho; norm_num)
    (3 / 2) 1
    (by
      have h : ensure_price_grid [⟨"a", "buy", 2, 1⟩] [⟨"b", "sell", 1, 1⟩] 1 = [1, 2, 3] := by
        norm_num [ensure_price_grid, pyMin, pyMax, pyInt_eq]
        simp [List.range_succ]
        norm_num
      have h2 : build_order_curves [⟨"a", "buy", 2, 1⟩] [⟨"b", "sell", 1, 1⟩] 1
          = ⟨[1, 2, 3], [1, 1, 0], [1, 1, 1]⟩ := by
        simp only [build_order_curves, aggregate_orders, h]
        simp
        norm_num [List.filter]
      rw [h2]
      simp only [find_equilibrium_price, OrderCurves.satisfaction]
      norm_num [pyMax, List.filter]
      simp)
    (by norm_num)

/-! ## Claims C3, C4, C5 -/

/-- C1: on every `OrderCurves` satisfying the data-model invariant (curves
aligned with a non-empty grid), `find_equilibrium_price` behaves exactly as
specified: satisfaction is the pointwise min, `max_volume` its maximum; a
positive `max_volume` yields the mean of the tied grid prices with that volume,
otherwise the last grid price with volume `0`. -/
theorem equilibrium_matches_spec (oc : OrderCurves) (hne : oc.price_grid ≠ [])
    (hb : oc.buy_curve.length = oc.price_grid.length)
    (hs : oc.sell_curve.length = oc.price_grid.length) :
    find_equilibrium_price oc = spec_equilibrium oc := by
  by_cases hle : pyMax (List.zipWith min oc.buy_curve oc.sell_curve) ≤ 0
  · have h2 : ¬(0 < (List.zipWith min oc.buy_curve oc.sell_curve).max?.getD 0) := by
      rw [← pyMax_eq_max?_getD]; exact not_lt.mpr hle
    simp only [find_equilibrium_price, spec_equilibrium, OrderCurves.satisfaction]
    rw [if_pos hle, if_neg h2]
  · have hpos : 0 < pyMax (List.zipWith min oc.buy_curve oc.sell_curve) := lt_of_not_le hle
    have h2 : 0 < (List.zipWith min oc.buy_curve oc.sell_curve).max?.getD 0 := by
      rw [← pyMax_eq_max?_getD]; exact hpos
    have hsatne : List.zipWith min oc.buy_curve oc.sell_curve ≠ [] := by
      intro h
      rw [h] at hpos
      exact absurd hpos (by norm_num [pyMax])
    have hmem : pyMax (List.zipWith min oc.buy_curve oc.sell_curve) ∈
        List.zipWith min oc.buy_curve oc.sell_curve := pyMax_mem hsatne
    have hlen : (List.zipWith min oc.buy_curve oc.sell_curve).length ≤ oc.price_grid.length := by
      rw [List.length_zipWith, hb, hs, min_self]
    have hcand := tied_ne_nil hlen hmem
    simp only [find_equilibrium_price, spec_equilibrium, OrderCurves.satisfaction]
    rw [if_neg hle, if_pos h2, if_neg hcand, ← pyMax_eq_max?_getD]

/-- Witness for C1 at a concrete aligned curve set. -/
theorem equilibrium_matches_spec_witness :
    find_equilibrium_price ⟨[1, 2], [3, 1], [2, 5]⟩ = spec_equilibrium ⟨[1, 2], [3, 1], [2, 5]⟩ :=
  equilibrium_matches_spec ⟨[1, 2], [3, 1], [2, 5]⟩ (by simp) rfl rfl

/-- C3: for every `WealthLimitedTrader` and every `apply_fill(order, price, volume)`
call: a non-positive volume is a no-op; a buy debits `price*volume` from wealth and
adds `volume` to holdings; a sell credits `price*volume` and removes `volume`. -/
theorem apply_fill_spec (t : WLTrader) (o : Order) (price volume : ℚ) :
    (volume ≤ 0 → t.apply_fill o price volume = t)
    ∧ (0 < volume → o.side = "buy" →
        (t.apply_fill o price volume).wealth = t.wealth - price * volume ∧
        (t.apply_fill o price volume).holdings = t.holdings + volume)
    ∧ (0 < volume → o.side = "sell" →
        (t.apply_fill o price volume).wealth = t.wealth + price * volume ∧
        (t.apply_fill o price volume).holdings = t.holdings - volume) := by
  refine ⟨fun h => ?_, fun h hside => ?_, fun h hside => ?_⟩
  · simp [WLTrader.apply_fill, h]
  · simp [WLTrader.apply_fill, not_le.mpr h, hside]
  · have hne : ¬(o.side = "buy") := by simp [hside]
    simp [WLTrader.apply_fill, not_le.mpr h, hne]

/-- Witness for C3 at a concrete trader, order, price and volume. -/
theorem apply_fill_spec_witness :
    (WLTrader.apply_fill ⟨"t", 100, 5⟩ ⟨"t", "buy", 10, 3⟩ 10 3).wealth = 100 - 10 * 3 ∧
    (WLTrader.apply_fill ⟨"t", 100, 5⟩ ⟨"t", "buy", 10, 3⟩ 10 3).holdings = 5 + 3 :=
  (apply_fill_spec ⟨"t", 100, 5⟩ ⟨"t", "buy", 10, 3⟩ 10 3).2.1 (by norm_num) rfl

/-- C4: `Order` construction fails with a validation error exactly when the side
is outside `{buy, sell}`, the price is non-positive, or the volume is non-positive;
every successfully constructed order therefore satisfies all three invariants. -/
theorem order_validation (trader_id side : String) (price volume : ℚ) :
    ((∃ e, mkOrder trader_id side price volume = .error e) ↔
      (¬(side = "buy" ∨ side = "sell") ∨ price ≤ 0 ∨ volume ≤ 0))
    ∧ (∀ o, mkOrder trader_id side price volume = .ok o →
        (o.side = "buy" ∨ o.side = "sell") ∧ 0 < o.price ∧ 0 < o.volume) := by
  constructor
  · constructor
    · rintro ⟨e, he⟩
      by_contra hcon
      push_neg at hcon
      obtain ⟨h1, h2, h3⟩ := hcon
      simp [mkOrder, h1, not_le.mpr h2, not_le.mpr h3] at he
    · intro h
      rcases h with h | h | h
      · exact ⟨"Invalid side", by simp [mkOrder, h]⟩
      · by_cases hside : side = "buy" ∨ side = "sell"
        · exact ⟨"Order price must be positive", by simp [mkOrder, hside, h]⟩
        · exact ⟨"Invalid side", by simp [mkOrder, hside]⟩
      · by_cases hside : side = "buy" ∨ side = "sell"
        · by_cases hp : price ≤ 0
          · exact ⟨"Order price must be positive", by simp [mkOrder, hside, hp]⟩
          · exact ⟨"Order volume must be positive", by simp [mkOrder, hside, hp, h]⟩
        · exact ⟨"Invalid side", by simp [mkOrder, hside]⟩
  · intro o ho
    by_cases hside : side = "buy" ∨ side = "sell"
    · by_cases hp : price ≤ 0
      · simp [mkOrder, hside, hp] at ho
      · by_cases hv : volume ≤ 0
        · simp [mkOrder, hside, hp, hv] at ho
        · have : o = { trader_id := trader_id, side := side, price := price, volume := volume } := by
            simpa [mkOrder, hside, hp, hv] using ho.symm
          subst this
          exact ⟨hside, lt_of_not_le hp, lt_of_not_le hv⟩
    · simp [mkOrder, hside] at ho

/-- Witness for C4: an invalid side is rejected, a valid construction succeeds
with the invariants holding of the produced order. -/
theorem order_validation_witness :
    (∃ e, mkOrder "t" "hold" 1 1 = .error e) ∧
    ∀ o, mkOrder "t" "buy" 2 3 = .ok o →
      (o.side = "buy" ∨ o.side = "sell") ∧ 0 < o.price ∧ 0 < o.volume :=
  ⟨(order_validation "t" "hold" 1 1).1.mpr (by simp),
   (order_validation "t" "buy" (2 : ℚ) 3).2⟩

/-- C5: whenever the inherited generator yields a candidate order,
`WealthLimitedTrader.maybe_generate_order` clips its volume to the side's cap
(buys: `min(wealth / max(price, tick), max_daily_volume)`; sells:
`min(holdings, max_daily_volume)`), returns `None` when the cap is non-positive,
and in particular a trader with zero wealth never emits a buy order. -/
theorem wl_generate_clips (wealth holdings : ℚ) (config : MarketConfig) (o : Order)
    (hv : 0 < o.volume) :
    (wlCap wealth holdings config o =
      (if o.side = "buy" then
        min (wealth / max o.price config.price_tick) config.max_daily_volume
      else min holdings config.max_daily_volume))
    ∧ (wlCap wealth holdings config o ≤ 0 →
        wlMaybeGenerateOrder wealth holdings config (some o) = none)
    ∧ (0 < wlCap wealth holdings config o →
        wlMaybeGenerateOrder wealth holdings config (some o) =
          some { o with volume := min o.volume (wlCap wealth holdings config o) })
    ∧ (wealth = 0 → o.side = "buy" →
        wlMaybeGenerateOrder wealth holdings config (some o) = none) := by
  refine ⟨rfl, fun hcap => ?_, fun hcap => ?_, fun hw hside => ?_⟩
  · simp only [wlMaybeGenerateOrder, wlClipOrder]
    rw [if_pos hcap]
  · have hpos : 0 < min o.volume (wlCap wealth holdings config o) := lt_min hv hcap
    simp only [wlMaybeGenerateOrder, wlClipOrder]
    rw [if_neg (not_le.mpr hcap), if_neg (not_le.mpr hpos)]
  · have hcap : wlCap wealth holdings config o ≤ 0 := by
      rw [wlCap, if_pos hside, hw, zero_div]
      exact min_le_left 0 _
    simp only [wlMaybeGenerateOrder, wlClipOrder]
    rw [if_pos hcap]

/-- C7: when every buy order's price is strictly below every sell order's
price, the auction clears with volume exactly `0` at the last grid price,
which is also the largest grid price. -/
theorem no_overlap_clears_zero (buys sells : List Order) (tick : ℚ) (ht : 0 < tick)
    (hlt : ∀ b ∈ buys, ∀ s ∈ sells, b.price < s.price) :
    find_equilibrium_price (build_order_curves buys sells tick)
      = ((build_order_curves buys sells tick).price_grid.getLastD 0, 0)
    ∧ (build_order_curves buys sells tick).price_grid ≠ []
    ∧ ∀ p ∈ (build_order_curves buys sells tick).price_grid,
        p ≤ (build_order_curves buys sells tick).price_grid.getLastD 0 := by
  refine ⟨?_, build_grid_ne_nil buys sells tick, build_grid_last_max buys sells tick ht⟩
  have hle : pyMax (build_order_curves buys sells tick).satisfaction ≤ 0 :=
    pyMax_nonpos (no_overlap_satisfaction_nonpos buys sells tick hlt)
  simp only [find_equilibrium_price]
  rw [if_pos hle]

/-- Witness for C7: one buy strictly below one sell clears zero volume at the
last grid price. -/
theorem no_overlap_clears_zero_witness :
    find_equilibrium_price (build_order_curves [⟨"b", "buy", 1, 1⟩] [⟨"s", "sell", 3, 1⟩] 1)
      = ((build_order_curves [⟨"b", "buy", 1, 1⟩] [⟨"s", "sell", 3, 1⟩] 1).price_grid.getLastD 0,
        0) :=
  (no_overlap_clears_zero [⟨"b", "buy", 1, 1⟩] [⟨"s", "sell", 3, 1⟩] 1 (by norm_num)
    (by decide)).1

/-- Witness for C5: a zero-wealth trader's buy candidate is suppressed. -/
theorem wl_generate_clips_witness :
    wlMaybeGenerateOrder 0 7 ⟨5, 100, 2, 50, "limited", "none", 1, none⟩
      (some ⟨"t", "buy", 10, 3⟩) = none :=
  (wl_generate_clips 0 7 ⟨5, 100, 2, 50, "limited", "none", 1, none⟩
    ⟨"t", "buy", 10, 3⟩ (by norm_num)).2.2.2 rfl rfl

/-! ## Claims C6 and C8 -/

/-- C6: on a day on which no trader produces any order (and there is no
manipulator), the runner emits a `MarketState` with volume `0` and the carried
price unchanged, skips clearing and settlement, and leaves every trader's
wealth and holdings untouched. -/
theorem empty_day_short_circuit (config : MarketConfig) (day : ℕ)
    (sentiment_value last_price : ℚ) (traders : List WLTrader)
    (cands : List (Option Order))
    (hnone : collectOrders config traders cands = []) :
    runDay config day sentiment_value last_price traders cands
      = ({ day := day, price := last_price, volume := 0,
            sentiment_value := sentiment_value, order_curves := none,
            manipulation_score := none }, traders) := by
  rw [runDay, hnone]
  rfl

/-- Witness for C6: one trader whose generator yields no candidate. -/
theorem empty_day_short_circuit_witness :
    runDay ⟨1, 100, 5, 50, "limited", "none", 1, none⟩ 0 0 100 [⟨"t0", 100, 5⟩] [none]
      = ({ day := 0, price := 100, volume := 0, sentiment_value := 0,
            order_curves := none, manipulation_score := none }, [⟨"t0", 100, 5⟩]) :=
  empty_day_short_circuit ⟨1, 100, 5, 50, "limited", "none", 1, none⟩ 0 0 100
    [⟨"t0", 100, 5⟩] [none] rfl

/-- C8: the simulation is a deterministic function of its seed, configuration
and day count — two runs constructed independently from the same seed, config
and population recipe produce identical `(day, price, volume)` sequences. -/
theorem run_deterministic (config : MarketConfig) (seed n_days : ℕ)
    (out1 out2 : List (ℕ × ℚ × ℚ))
    (h1 : out1 = buildAndRun config seed n_days)
    (h2 : out2 = buildAndRun config seed n_days) :
    out1 = out2 := h1.trans h2.symm

/-- Witness for C8: two runs from seed 42 over three days coincide. -/
theorem run_deterministic_witness :
    buildAndRun ⟨3, 100, 5, 50, "limited", "none", 1, none⟩ 42 3
      = buildAndRun ⟨3, 100, 5, 50, "limited", "none", 1, none⟩ 42 3 :=
  run_deterministic ⟨3, 100, 5, 50, "limited", "none", 1, none⟩ 42 3 _ _ rfl rfl

/-! ## Claim C9 -/

/-- The slice `series[start : idx+1]` taken by `rolling_zscore` is exactly the
trailing window of up to `window` points ending at `idx`. -/
lemma zscore_slice_eq (values : List ℝ) (window idx : ℕ) :
    (values.drop ((max 0 ((idx : ℤ) - (window : ℤ) + 1)).toNat)).take
        (idx + 1 - (max 0 ((idx : ℤ) - (window : ℤ) + 1)).toNat)
      = (values.take (idx + 1)).drop (idx + 1 - window) := by
  have hstart : (max 0 ((idx : ℤ) - (window : ℤ) + 1)).toNat = idx + 1 - window := by omega
  rw [hstart]
  exact (List.drop_take (idx + 1) (idx + 1 - window) values).symm

/-- C9: `rolling_zscore` computes, at every index, the spec's trailing-window
z-score (zero whenever the trailing standard deviation is zero), and on a
constant series it returns all zeros. -/
theorem rolling_zscore_spec (values : List ℝ) (window : ℕ) (hw : 1 ≤ window) :
    rolling_zscore values window
      = (List.range values.length).map (spec_zscore values window)
    ∧ ∀ (c : ℝ) (n : ℕ), rolling_zscore (List.replicate n c) window = List.replicate n 0 := by
  have hpoint : ∀ vals : List ℝ, ∀ idx : ℕ,
      (let start := (max 0 ((idx : ℤ) - (window : ℤ) + 1)).toNat
       let window_slice := (vals.drop start).take (idx + 1 - start)
       let mean := window_slice.sum / window_slice.length
       let std :=
         if 1 < window_slice.length then
           Real.sqrt ((window_slice.map (fun v => (v - mean) ^ 2)).sum
             / ((window_slice.length : ℝ) - 1))
         else 0
       if std = 0 then 0 else (vals.getD idx 0 - mean) / std)
      = spec_zscore vals window idx := by
    intro vals idx
    simp only [spec_zscore, ← zscore_slice_eq vals window idx]
    by_cases hlen : 1 < ((vals.drop ((max 0 ((idx : ℤ) - (window : ℤ) + 1)).toNat)).take
        (idx + 1 - (max 0 ((idx : ℤ) - (window : ℤ) + 1)).toNat)).length
    · rw [if_pos hlen, if_pos hlen]
    · rw [if_neg hlen, if_neg hlen, Real.sqrt_zero]
  constructor
  · by_cases hempty : values.isEmpty
    · rw [rolling_zscore, if_pos hempty]
      rw [List.isEmpty_iff.mp hempty]
      simp
    · rw [rolling_zscore, if_neg hempty]
      exact List.map_congr_left (fun idx _ => hpoint values idx)
  · intro c n
    rw [rolling_zscore]
    by_cases hempty : (List.replicate n c).isEmpty
    · rw [if_pos hempty]
      have : n = 0 := by
        have := List.isEmpty_iff.mp hempty
        simpa using congrArg List.length this
      rw [this]
      rfl
    · rw [if_neg hempty]
      rw [List.eq_replicate_iff]
      refine ⟨by rw [List.length_map, List.length_range, List.length_replicate], ?_⟩
      intro b hb
      obtain ⟨idx, hidx, rfl⟩ := List.mem_map.mp hb
      simp only []
      set start := (max 0 ((idx : ℤ) - (window : ℤ) + 1)).toNat with hstart
      have hslice : ((List.replicate n c).drop start).take (idx + 1 - start)
          = List.replicate (min (idx + 1 - start) (n - start)) c := by
        rw [List.drop_replicate, List.take_replicate]
      rw [hslice]
      set k := min (idx + 1 - start) (n - start) with hk
      by_cases hlen : 1 < (List.replicate k c).length
      · have hkk : (1 : ℕ) < k := by simpa using hlen
        have hkne : (k : ℝ) ≠ 0 := by
          have : (0 : ℕ) < k := lt_trans Nat.zero_lt_one hkk
          exact_mod_cast this.ne'
        have hmean : (List.replicate k c).sum / ((List.replicate k c).length : ℝ) = c := by
          rw [List.sum_replicate, List.length_replicate, nsmul_eq_mul]
          exact mul_div_cancel_left₀ c hkne
        rw [if_pos hlen, hmean]
        have hvar : ((List.replicate k c).map (fun v => (v - c) ^ 2)).sum = 0 := by
          rw [List.map_replicate]
          simp
        rw [hvar, zero_div, Real.sqrt_zero, if_pos rfl]
      · rw [if_neg hlen, if_pos rfl]

/-- Witness for C9 at window 3: the pointwise-spec equality on a concrete
series, and all-zeros on every constant series. -/
theorem rolling_zscore_spec_witness :
    rolling_zscore [(5 : ℝ), 5] 3
      = (List.range ([(5 : ℝ), 5]).length).map (spec_zscore [(5 : ℝ), 5] 3)
    ∧ ∀ (c : ℝ) (n : ℕ), rolling_zscore (List.replicate n c) 3 = List.replicate n 0 :=
  rolling_zscore_spec [5, 5] 3 (by norm_num)

/-! ## Claim C10: helper lemmas -/

lemma subperm_nodup {α : Type} {l1 l2 : List α} (h : l1.Subperm l2) (h2 : l2.Nodup) :
    l1.Nodup := by
  obtain ⟨l, hperm, hsub⟩ := h
  exact hperm.nodup_iff.mp (List.Nodup.sublist hsub h2)

lemma updateAt_nil {α : Type} (i : ℕ) (f : α → α) : updateAt [] i f = [] := by
  cases i <;> rfl

lemma updateAt_getElem?_ne {α : Type} (f : α → α) :
    ∀ (l : List α) (i j : ℕ), i ≠ j → (updateAt l i f)[j]? = l[j]? := by
  intro l
  induction l with
  | nil => intro i j _; rw [updateAt_nil]
  | cons x xs ih =>
    intro i j hne
    cases i with
    | zero =>
      cases j with
      | zero => exact absurd rfl hne
      | succ m =>
        rw [updateAt, List.getElem?_cons_succ, List.getElem?_cons_succ]
    | succ n =>
      cases j with
      | zero =>
        rw [updateAt, List.getElem?_cons_zero, List.getElem?_cons_zero]
      | succ m =>
        have hnm : n ≠ m := fun h => hne (by rw [h])
        rw [updateAt]
        rw [List.getElem?_cons_succ, List.getElem?_cons_succ]
        exact ih n m hnm

lemma mem_updateAt {α : Type} (f : α → α) :
    ∀ (l : List α) (i : ℕ) (x : α), x ∈ updateAt l i f →
      x ∈ l ∨ ∃ y, l[i]? = some y ∧ x = f y := by
  intro l
  induction l with
  | nil =>
    intro i x hx
    rw [updateAt_nil] at hx
    cases hx
  | cons a as ih =>
    intro i x hx
    cases i with
    | zero =>
      rw [updateAt] at hx
      rcases List.mem_cons.mp hx with h | h
      · exact Or.inr ⟨a, List.getElem?_cons_zero, h⟩
      · exact Or.inl (List.mem_cons_of_mem a h)
    | succ n =>
      rw [updateAt] at hx
      rcases List.mem_cons.mp hx with h | h
      · exact Or.inl (h ▸ List.mem_cons_self a as)
      · rcases ih n x h with h2 | ⟨y, hy, hxy⟩
        · exact Or.inl (List.mem_cons_of_mem a h2)
        · exact Or.inr ⟨y, by rw [List.getElem?_cons_succ]; exact hy, hxy⟩

lemma nodup_keys_eq : ∀ {l : List (ℕ × Order)}, (l.map Prod.fst).Nodup →
    ∀ {i : ℕ} {a b : Order}, (i, a) ∈ l → (i, b) ∈ l → a = b := by
  intro l
  induction l with
  | nil => intro _ i a b ha _; cases ha
  | cons x xs ih =>
    intro h i a b ha hb
    rw [List.map_cons, List.nodup_cons] at h
    rcases List.mem_cons.mp ha with h1 | h1 <;> rcases List.mem_cons.mp hb with h2 | h2
    · exact congrArg Prod.snd (h1.trans h2.symm)
    · exfalso
      apply h.1
      have : i = x.1 := congrArg Prod.fst h1
      rw [← this]
      exact List.mem_map_of_mem Prod.fst h2
    · exfalso
      apply h.1
      have : i = x.1 := congrArg Prod.fst h2
      rw [← this]
      exact List.mem_map_of_mem Prod.fst h1
    · exact ih h.2 h1 h2

lemma filterMap_tag_fst_sublist {α β : Type} (F : ℕ × α → Option β) :
    ∀ l : List (ℕ × α),
      ((l.filterMap (fun ie => (F ie).map (fun b => (ie.1, b)))).map Prod.fst).Sublist
        (l.map Prod.fst) := by
  intro l
  induction l with
  | nil => simp
  | cons a l ih =>
    rw [List.filterMap_cons]
    cases hF : F a with
    | none =>
      rw [List.map_cons]
      exact List.Sublist.cons a.1 ih
    | some b =>
      rw [List.map_cons]
      exact List.Sublist.cons₂ a.1 ih

lemma collect_fst_nodup (config : MarketConfig) (traders : List WLTrader)
    (cands : List (Option Order)) :
    ((collectOrders config traders cands).map Prod.fst).Nodup := by
  have hsub := filterMap_tag_fst_sublist
    (fun ie : ℕ × (WLTrader × Option Order) =>
      wlMaybeGenerateOrder ie.2.1.wealth ie.2.1.holdings config ie.2.2)
    (traders.zip cands).enum
  rw [List.enum_map_fst] at hsub
  exact List.Nodup.sublist hsub (List.nodup_range _)

lemma zip_getElem?_fst {α β : Type} {l : List α} {l' : List β} {i : ℕ} {a : α} {b : β}
    (h : (l.zip l')[i]? = some (a, b)) : l[i]? = some a := by
  rw [List.getElem?_eq_some] at h ⊢
  obtain ⟨hi, hv⟩ := h
  have hig : i < l.length :=
    lt_of_lt_of_le hi (by rw [List.length_zip]; exact min_le_left _ _)
  refine ⟨hig, ?_⟩
  have hz := List.getElem_zip (h := hi)
  rw [hz] at hv
  exact congrArg Prod.fst hv

lemma wlClipOrder_sound (wealth holdings : ℚ) (config : MarketConfig)
    (ht : 0 < config.price_tick) {cand o : Order}
    (h : wlClipOrder wealth holdings config cand = some o) :
    0 < o.volume
    ∧ (o.side = "buy" → o.volume * max o.price config.price_tick ≤ wealth)
    ∧ (¬o.side = "buy" → o.volume ≤ holdings) := by
  rw [wlClipOrder] at h
  by_cases hc1 : wlCap wealth holdings config cand ≤ 0
  · rw [if_pos hc1] at h; cases h
  · rw [if_neg hc1] at h
    by_cases hc2 : min cand.volume (wlCap wealth holdings config cand) ≤ 0
    · rw [if_pos hc2] at h; cases h
    · rw [if_neg hc2] at h
      have ho : o = { cand with volume := min cand.volume (wlCap wealth holdings config cand) } :=
        (Option.some.inj h).symm
      subst ho
      refine ⟨lt_of_not_le hc2, ?_, ?_⟩
      · intro hside
        have hcap : wlCap wealth holdings config cand
            = min (wealth / max cand.price config.price_tick) config.max_daily_volume := by
          rw [wlCap, if_pos hside]
        have hle1 : min cand.volume (wlCap wealth holdings config cand)
            ≤ wealth / max cand.price config.price_tick := by
          refine le_trans (min_le_right _ _) ?_
          rw [hcap]
          exact min_le_left _ _
        have hmaxpos : 0 < max cand.price config.price_tick :=
          lt_of_lt_of_le ht (le_max_right _ _)
        exact (le_div_iff₀ hmaxpos).mp hle1
      · intro hside
        have hcap : wlCap wealth holdings config cand
            = min holdings config.max_daily_volume := by
          rw [wlCap, if_neg hside]
        refine le_trans (min_le_right _ _) ?_
        rw [hcap]
        exact min_le_left _ _

lemma collect_mem_sound (config : MarketConfig) (ht : 0 < config.price_tick)
    (traders : List WLTrader) (cands : List (Option Order))
    {i : ℕ} {o : Order} (h : (i, o) ∈ collectOrders config traders cands) :
    ∃ t, traders[i]? = some t ∧ 0 < o.volume
      ∧ (o.side = "buy" → o.volume * max o.price config.price_tick ≤ t.wealth)
      ∧ (¬o.side = "buy" → o.volume ≤ t.holdings) := by
  rw [collectOrders] at h
  obtain ⟨ie, hie, hmap⟩ := List.mem_filterMap.mp h
  cases hgen : wlMaybeGenerateOrder ie.2.1.wealth ie.2.1.holdings config ie.2.2 with
  | none => rw [hgen] at hmap; cases hmap
  | some o' =>
    rw [hgen] at hmap
    have hpair := Option.some.inj hmap
    have h1 : ie.1 = i := congrArg Prod.fst hpair
    have h2 : o' = o := congrArg Prod.snd hpair
    subst h2
    have henum := List.mem_enum_iff_getElem?.mp hie
    have htr : traders[i]? = some ie.2.1 := by
      rw [← h1]
      exact zip_getElem?_fst (by
        have : ie.2 = (ie.2.1, ie.2.2) := rfl
        rw [← this]
        exact henum)
    refine ⟨ie.2.1, htr, ?_⟩
    cases hcand : ie.2.2 with
    | none => rw [hcand, wlMaybeGenerateOrder] at hgen; cases hgen
    | some cand =>
      rw [hcand, wlMaybeGenerateOrder] at hgen
      exact wlClipOrder_sound ie.2.1.wealth ie.2.1.holdings config ht hgen

lemma applyFill_nonneg (config : MarketConfig) {p : ℚ} {t : WLTrader} {o : Order} {f : ℚ}
    (hg : GoodFill config p t o f) (hw : 0 ≤ t.wealth) (hh : 0 ≤ t.holdings) :
    0 ≤ (t.apply_fill o p f).wealth ∧ 0 ≤ (t.apply_fill o p f).holdings := by
  obtain ⟨hf, hfv, hp, hbuy, hsell⟩ := hg
  rw [WLTrader.apply_fill, if_neg (not_le.mpr hf)]
  by_cases hside : o.side = "buy"
  · rw [if_pos hside]
    obtain ⟨hpo, hwb⟩ := hbuy hside
    have hvol : 0 < o.volume := lt_of_lt_of_le hf hfv
    constructor
    · show 0 ≤ t.wealth - p * f
      have h1 : p * f ≤ o.price * f := mul_le_mul_of_nonneg_right hpo hf.le
      have hop : 0 < o.price := lt_of_lt_of_le hp hpo
      have h2 : o.price * f ≤ o.price * o.volume := mul_le_mul_of_nonneg_left hfv hop.le
      have h3 : o.price * o.volume ≤ max o.price config.price_tick * o.volume :=
        mul_le_mul_of_nonneg_right (le_max_left _ _) hvol.le
      have h4 : max o.price config.price_tick * o.volume
          = o.volume * max o.price config.price_tick := mul_comm _ _
      linarith
    · show 0 ≤ t.holdings + f
      linarith
  · rw [if_neg hside]
    have hhv := hsell hside
    constructor
    · show 0 ≤ t.wealth + p * f
      have := mul_nonneg hp.le hf.le
      linarith
    · show 0 ≤ t.holdings - f
      linarith

lemma settle_foldl_nonneg (config : MarketConfig) (p : ℚ) :
    ∀ (fills : List ((ℕ × Order) × ℚ)) (ts : List WLTrader),
      (fills.map (fun x => x.1.1)).Nodup →
      (∀ x ∈ fills, ∀ t, ts[x.1.1]? = some t → GoodFill config p t x.1.2 x.2) →
      (∀ t ∈ ts, 0 ≤ t.wealth ∧ 0 ≤ t.holdings) →
      ∀ t ∈ fills.foldl (fun ts fill =>
          if 0 < fill.2 then updateAt ts fill.1.1 (fun t => t.apply_fill fill.1.2 p fill.2)
          else ts) ts,
        0 ≤ t.wealth ∧ 0 ≤ t.holdings := by
  intro fills
  induction fills with
  | nil => intro ts _ _ h0 t ht; exact h0 t ht
  | cons x fs ih =>
    intro ts hnodup hgood h0
    rw [List.foldl_cons]
    set ts2 := if 0 < x.2 then updateAt ts x.1.1 (fun t => t.apply_fill x.1.2 p x.2) else ts
      with hts2
    have hpres : ∀ t ∈ ts2, 0 ≤ t.wealth ∧ 0 ≤ t.holdings := by
      intro t ht
      rw [hts2] at ht
      by_cases hx2 : 0 < x.2
      · rw [if_pos hx2] at ht
        rcases mem_updateAt _ ts x.1.1 t ht with hmem | ⟨y, hy, rfl⟩
        · exact h0 t hmem
        · have hgy := hgood x (List.mem_cons_self x fs) y hy
          have hymem : y ∈ ts := List.getElem?_mem hy
          exact applyFill_nonneg config hgy (h0 y hymem).1 (h0 y hymem).2
      · rw [if_neg hx2] at ht
        exact h0 t ht
    have hget : ∀ y ∈ fs, ts2[y.1.1]? = ts[y.1.1]? := by
      intro y hy
      rw [hts2]
      by_cases hx2 : 0 < x.2
      · rw [if_pos hx2]
        apply updateAt_getElem?_ne
        intro heq
        rw [List.map_cons, List.nodup_cons] at hnodup
        exact hnodup.1 (by rw [heq]; exact List.mem_map_of_mem _ hy)
      · rw [if_neg hx2]
    refine ih ts2 ?_ ?_ hpres
    · rw [List.map_cons, List.nodup_cons] at hnodup
      exact hnodup.2
    · intro y hy t hty
      rw [hget y hy] at hty
      exact hgood y (List.mem_cons_of_mem x hy) t hty

lemma subperm_map {α β : Type} (f : α → β) {l1 l2 : List α} (h : l1.Subperm l2) :
    (l1.map f).Subperm (l2.map f) := by
  obtain ⟨l, hperm, hsub⟩ := h
  exact ⟨l.map f, hperm.map f, hsub.map f⟩

lemma tied_subset_grid (oc : OrderCurves) : ∀ x ∈ tiedPrices oc, x ∈ oc.price_grid := by
  intro x hx
  have hx2 := hx
  simp only [tiedPrices] at hx2
  obtain ⟨j, hjg, _, hgj, _⟩ := tied_mem_index hx2
  rw [← hgj]
  exact List.getElem_mem hjg

/-- Whenever the cleared volume is positive, the clearing price is at least the
price tick: every grid point is, and the price is a mean of grid points. -/
lemma equilibrium_price_ge_tick (buys sells : List Order) (tick : ℚ) (ht : 0 < tick)
    (hv : 0 < (find_equilibrium_price (build_order_curves buys sells tick)).2) :
    tick ≤ (find_equilibrium_price (build_order_curves buys sells tick)).1 := by
  have hlen : (build_order_curves buys sells tick).satisfaction.length
      ≤ (build_order_curves buys sells tick).price_grid.length := by
    rw [build_satisfaction_eq, List.length_map]
  obtain ⟨hpos, hcand, hfind⟩ := equilibrium_pos _ hlen hv.ne'
  have hp1 : (find_equilibrium_price (build_order_curves buys sells tick)).1
      = (tiedPrices (build_order_curves buys sells tick)).sum
        / ((tiedPrices (build_order_curves buys sells tick)).length : ℚ) :=
    congrArg Prod.fst hfind
  rw [hp1]
  have h1 : tick ≤ pyMin (tiedPrices (build_order_curves buys sells tick)) :=
    build_grid_ge_tick buys sells tick ht _
      (tied_subset_grid _ _ (pyMin_mem hcand))
  exact le_trans h1 (pyMin_le_mean hcand)

lemma dayPV_price_ge_tick (config : MarketConfig) (collected : List (ℕ × Order))
    (ht : 0 < config.price_tick) (hv : 0 < (dayPV config collected).2) :
    config.price_tick ≤ (dayPV config collected).1 :=
  equilibrium_price_ge_tick ((dayBuyOrders collected).map Prod.snd)
    ((daySellOrders collected).map Prod.snd) config.price_tick ht hv

lemma dayBuyFills_mem (config : MarketConfig) (collected : List (ℕ × Order))
    {x : (ℕ × Order) × ℚ} (hx : x ∈ dayBuyFills config collected) :
    x.1 ∈ collected ∧ x.1.2.side = "buy"
    ∧ (dayPV config collected).1 ≤ x.1.2.price
    ∧ 0 < x.2 ∧ x.2 ≤ x.1.2.volume ∧ 0 < (dayPV config collected).2 := by
  rw [dayBuyFills] at hx
  obtain ⟨hmem, hfpos, hfle, hr⟩ :=
    allocateFillsGo_mem (fun io => io.2.volume) _ _ x.1 x.2 hx
  have hmem2 := List.mem_mergeSort.mp hmem
  have hmem3 := List.mem_filter.mp hmem2
  have hple : (dayPV config collected).1 ≤ x.1.2.price := by simpa using hmem3.2
  have hmem4 : x.1 ∈ dayBuyOrders collected := hmem3.1
  rw [dayBuyOrders] at hmem4
  have hmem5 := List.mem_filter.mp hmem4
  have hv : 0 < (dayPV config collected).2 := by
    rcases lt_max_iff.mp hr with h | h
    · exact h
    · exact absurd h (lt_irrefl 0)
  exact ⟨hmem5.1, by simpa using hmem5.2, hple, hfpos, hfle, hv⟩

lemma daySellFills_mem (config : MarketConfig) (collected : List (ℕ × Order))
    {x : (ℕ × Order) × ℚ} (hx : x ∈ daySellFills config collected) :
    x.1 ∈ collected ∧ ¬x.1.2.side = "buy"
    ∧ x.1.2.price ≤ (dayPV config collected).1
    ∧ 0 < x.2 ∧ x.2 ≤ x.1.2.volume ∧ 0 < (dayPV config collected).2 := by
  rw [daySellFills] at hx
  obtain ⟨hmem, hfpos, hfle, hr⟩ :=
    allocateFillsGo_mem (fun io => io.2.volume) _ _ x.1 x.2 hx
  have hmem2 := List.mem_mergeSort.mp hmem
  have hmem3 := List.mem_filter.mp hmem2
  have hple : x.1.2.price ≤ (dayPV config collected).1 := by simpa using hmem3.2
  have hmem4 : x.1 ∈ daySellOrders collected := hmem3.1
  rw [daySellOrders] at hmem4
  have hmem5 := List.mem_filter.mp hmem4
  have hv : 0 < (dayPV config collected).2 := by
    rcases lt_max_iff.mp hr with h | h
    · exact h
    · exact absurd h (lt_irrefl 0)
  exact ⟨hmem5.1, by simpa using hmem5.2, hple, hfpos, hfle, hv⟩

lemma runDay_fills_good (config : MarketConfig) (ht : 0 < config.price_tick)
    (traders : List WLTrader) (cands : List (Option Order)) :
    ∀ x ∈ dayBuyFills config (collectOrders config traders cands)
        ++ daySellFills config (collectOrders config traders cands),
      ∀ t, traders[x.1.1]? = some t →
        GoodFill config (dayPV config (collectOrders config traders cands)).1 t x.1.2 x.2 := by
  intro x hx t htr
  rcases List.mem_append.mp hx with hbx | hsx
  · obtain ⟨hmem, hside, hple, hfpos, hfle, hv⟩ :=
      dayBuyFills_mem config (collectOrders config traders cands) hbx
    have hpp : 0 < (dayPV config (collectOrders config traders cands)).1 :=
      lt_of_lt_of_le ht (dayPV_price_ge_tick config _ ht hv)
    obtain ⟨t', htr', hvol, hbuy, _⟩ :=
      collect_mem_sound config ht traders cands (i := x.1.1) (o := x.1.2) hmem
    have hts : t' = t := Option.some.inj (htr'.symm.trans htr)
    subst hts
    exact ⟨hfpos, hfle, hpp, fun hs => ⟨hple, hbuy hs⟩, fun hs => absurd hside hs⟩
  · obtain ⟨hmem, hside, hple, hfpos, hfle, hv⟩ :=
      daySellFills_mem config (collectOrders config traders cands) hsx
    have hpp : 0 < (dayPV config (collectOrders config traders cands)).1 :=
      lt_of_lt_of_le ht (dayPV_price_ge_tick config _ ht hv)
    obtain ⟨t', htr', hvol, _, hsell⟩ :=
      collect_mem_sound config ht traders cands (i := x.1.1) (o := x.1.2) hmem
    have hts : t' = t := Option.some.inj (htr'.symm.trans htr)
    subst hts
    exact ⟨hfpos, hfle, hpp, fun hs => absurd hs hside, fun hs => hsell hs⟩

lemma dayBuyFills_keys_subperm (config : MarketConfig) (collected : List (ℕ × Order)) :
    ((dayBuyFills config collected).map Prod.fst).Subperm collected := by
  have h1 := allocateFillsGo_fst_sublist (fun io : ℕ × Order => io.2.volume)
    (((dayBuyOrders collected).filter
        (fun io => decide ((dayPV config collected).1 ≤ io.2.price))).mergeSort
      (fun a b => decide (b.2.price ≤ a.2.price)))
    (max (dayPV config collected).2 0)
  have h2 := List.mergeSort_perm ((dayBuyOrders collected).filter
      (fun io => decide ((dayPV config collected).1 ≤ io.2.price)))
    (fun a b => decide (b.2.price ≤ a.2.price))
  have h3 := List.filter_sublist (p := fun io : ℕ × Order =>
    decide ((dayPV config collected).1 ≤ io.2.price)) (dayBuyOrders collected)
  have h4 : (dayBuyOrders collected).Sublist collected := by
    rw [dayBuyOrders]; exact List.filter_sublist collected
  exact ((h1.subperm.trans h2.subperm).trans h3.subperm).trans h4.subperm

lemma daySellFills_keys_subperm (config : MarketConfig) (collected : List (ℕ × Order)) :
    ((daySellFills config collected).map Prod.fst).Subperm collected := by
  have h1 := allocateFillsGo_fst_sublist (fun io : ℕ × Order => io.2.volume)
    (((daySellOrders collected).filter
        (fun io => decide (io.2.price ≤ (dayPV config collected).1))).mergeSort
      (fun a b => decide (a.2.price ≤ b.2.price)))
    (max (dayPV config collected).2 0)
  have h2 := List.mergeSort_perm ((daySellOrders collected).filter
      (fun io => decide (io.2.price ≤ (dayPV config collected).1)))
    (fun a b => decide (a.2.price ≤ b.2.price))
  have h3 := List.filter_sublist (p := fun io : ℕ × Order =>
    decide (io.2.price ≤ (dayPV config collected).1)) (daySellOrders collected)
  have h4 : (daySellOrders collected).Sublist collected := by
    rw [daySellOrders]; exact List.filter_sublist collected
  exact ((h1.subperm.trans h2.subperm).trans h3.subperm).trans h4.subperm

lemma runDay_fills_nodup (config : MarketConfig) (traders : List WLTrader)
    (cands : List (Option Order)) :
    ((dayBuyFills config (collectOrders config traders cands)
        ++ daySellFills config (collectOrders config traders cands)).map
      (fun x => x.1.1)).Nodup := by
  set collected := collectOrders config traders cands with hcol
  have hkeys : (collected.map Prod.fst).Nodup := by
    rw [hcol]; exact collect_fst_nodup config traders cands
  have hmmA : (dayBuyFills config collected).map (fun x => x.1.1)
      = ((dayBuyFills config collected).map Prod.fst).map Prod.fst := by
    rw [List.map_map]; rfl
  have hmmB : (daySellFills config collected).map (fun x => x.1.1)
      = ((daySellFills config collected).map Prod.fst).map Prod.fst := by
    rw [List.map_map]; rfl
  rw [List.map_append, hmmA, hmmB, List.nodup_append]
  refine ⟨?_, ?_, ?_⟩
  · exact subperm_nodup (subperm_map Prod.fst (dayBuyFills_keys_subperm config collected)) hkeys
  · exact subperm_nodup (subperm_map Prod.fst (daySellFills_keys_subperm config collected)) hkeys
  · intro k hkA hkB
    obtain ⟨keyA, hkeyA, hfstA⟩ := List.mem_map.mp hkA
    obtain ⟨keyB, hkeyB, hfstB⟩ := List.mem_map.mp hkB
    obtain ⟨xA, hxA, rfl⟩ := List.mem_map.mp hkeyA
    obtain ⟨xB, hxB, rfl⟩ := List.mem_map.mp hkeyB
    obtain ⟨hmemA, hsideA, -⟩ := dayBuyFills_mem config collected hxA
    obtain ⟨hmemB, hsideB, -⟩ := daySellFills_mem config collected hxB
    have hkeysEq : xA.1.1 = xB.1.1 := hfstA.trans hfstB.symm
    have hA : (xA.1.1, xA.1.2) ∈ collected := hmemA
    have hB : (xA.1.1, xB.1.2) ∈ collected := by rw [hkeysEq]; exact hmemB
    have := nodup_keys_eq hkeys hA hB
    exact hsideB (by rw [← this]; exact hsideA)

/-- One day of the runner preserves non-negative wealth and holdings for every
`WealthLimitedTrader`. -/
lemma runDay_nonneg (config : MarketConfig) (ht : 0 < config.price_tick)
    (day : ℕ) (sv lp : ℚ) (traders : List WLTrader) (cands : List (Option Order))
    (h0 : ∀ t ∈ traders, 0 ≤ t.wealth ∧ 0 ≤ t.holdings) :
    ∀ t ∈ (runDay config day sv lp traders cands).2, 0 ≤ t.wealth ∧ 0 ≤ t.holdings := by
  rw [runDay, clearDay]
  by_cases hemp : dayBuyOrders (collectOrders config traders cands) = []
      ∧ daySellOrders (collectOrders config traders cands) = []
  · rw [if_pos hemp]
    exact h0
  · rw [if_neg hemp]
    exact settle_foldl_nonneg config (dayPV config (collectOrders config traders cands)).1
      (dayBuyFills config (collectOrders config traders cands)
        ++ daySellFills config (collectOrders config traders cands))
      traders
      (runDay_fills_nodup config traders cands)
      (runDay_fills_good config ht traders cands)
      h0

/-- C10: in a run of the simulation over a `WealthLimitedTrader` population
with a positive price tick and no manipulator, every trader's wealth and
holdings stay non-negative after every simulated day: each day's single order
is clipped to what the trader can afford or holds, and fills execute at the
clearing price, which a buy pays at or below its limit and with at most the
order's volume. -/
theorem wealth_holdings_stay_nonneg (config : MarketConfig) (ht : 0 < config.price_tick)
    (sent : ℕ → ℚ) (cands : ℕ → List (Option Order)) (last_price : ℚ)
    (traders : List WLTrader)
    (h0 : ∀ t ∈ traders, 0 ≤ t.wealth ∧ 0 ≤ t.holdings) (n : ℕ) :
    ∀ t ∈ (wlRun config sent cands last_price traders n).1,
      0 ≤ t.wealth ∧ 0 ≤ t.holdings := by
  induction n with
  | zero => exact h0
  | succ m ih =>
    rw [wlRun]
    exact runDay_nonneg config ht m (sent m) _ _ (cands m) ih

/-- Witness for C10: a two-day run of one trader starting at wealth 100 and
holdings 5 keeps both non-negative. -/
theorem wealth_holdings_stay_nonneg_witness :
    0 ≤ (⟨"t0", 100, 5⟩ : WLTrader).wealth ∧ 0 ≤ (⟨"t0", 100, 5⟩ : WLTrader).holdings :=
  wealth_holdings_stay_nonneg ⟨1, 100, 5, 50, "limited", "none", 1, none⟩ (by norm_num)
    (fun _ => 0) (fun _ => [none]) 100 [⟨"t0", 100, 5⟩]
    (by
      intro t htmem
      rw [List.mem_singleton] at htmem
      subst htmem
      norm_num)
    2 ⟨"t0", 100, 5⟩ (List.mem_singleton.mpr rfl)

end MarketLab
